import Mathlib

/-!
Shallow embedding of the string-analyzer service
(repository: hng_backend-stage1, entry point src/index.js per the Dockerfile;
src/unnamed/part_000 is an earlier variant of the same server kept in the repo).

Modelling conventions:
* A JavaScript string is a list of Unicode code points (Lean Char).
  JavaScript iteration with for..of walks code points, which matches List
  iteration; JavaScript .length and string equality work on UTF-16 code
  units, which we recover through utf16Units / utf16Length below.
  Lone surrogates cannot be expressed (Lean Char excludes them); no claim
  depends on them.
* String.prototype.toLowerCase is modelled on the ASCII fragment of the
  Unicode simple case mapping (A-Z to a-z, identity elsewhere); every
  concrete input appearing in the claims is ASCII.
* The SHA-256 hasher is, as in the specification, an external collaborator:
  all definitions are parameterised by an arbitrary digest function
  hash : JSStr -> JSStr.  Theorems that need collision freedom assume
  Function.Injective hash, matching the design note that the source treats
  the hash as an infallible identity.
-/

/-- A JavaScript string, as its sequence of Unicode code points. -/
abbrev JSStr := List Char

/-- Code points of a Lean string literal, used to write concrete JS strings. -/
def jstr (s : String) : JSStr := s.data

/-- ASCII fragment of the case mapping done by String.prototype.toLowerCase:
maps A-Z to a-z and leaves every other code point unchanged. -/
def jsToLowerChar (c : Char) : Char :=
  if 'A' ≤ c ∧ c ≤ 'Z' then Char.ofNat (c.toNat + 32) else c

/-- value.toLowerCase(), code point by code point. -/
def toLowerStr (s : JSStr) : JSStr := s.map jsToLowerChar

/-- UTF-16 code units of a string: one unit for a BMP code point, a
surrogate pair for an astral one.  JavaScript .length, String equality and
split('') all operate on this sequence. -/
def utf16Units (s : JSStr) : List Nat :=
  (s.map (fun c =>
    if c.toNat < 0x10000 then [c.toNat]
    else [0xD800 + (c.toNat - 0x10000) / 0x400, 0xDC00 + (c.toNat - 0x10000) % 0x400])).flatten

/-- value.length in JavaScript: the number of UTF-16 code units. -/
def utf16Length (s : JSStr) : Nat := (utf16Units s).length

/-- ECMAScript whitespace recognised by \s and trim (the code points the
service can realistically see; the exotic Unicode space separators behave
the same way and are omitted). -/
def isJsWs (c : Char) : Bool :=
  c = ' ' || c = '\t' || c = '\n' || c = '\r' ||
  c.toNat = 11 || c.toNat = 12 || c.toNat = 0xA0 || c.toNat = 0xFEFF

/-- Accumulator pass behind wsTokens: cur holds the reversed current token. -/
def wsTokensAux : JSStr → JSStr → List JSStr
  | cur, [] => if cur.isEmpty then [] else [cur.reverse]
  | cur, c :: t =>
    if isJsWs c then
      (if cur.isEmpty then wsTokensAux [] t else cur.reverse :: wsTokensAux [] t)
    else wsTokensAux (c :: cur) t

/-- Maximal runs of non-whitespace characters.  This is exactly what
value.trim().split(/\s+/).filter(Boolean) produces in the source: trimming
plus splitting on whitespace runs plus dropping empty tokens leaves the
maximal non-whitespace runs, in order. -/
def wsTokens (s : JSStr) : List JSStr := wsTokensAux [] s

/-- m[k] on an association list (first binding wins; the operations below
keep keys unique, as a JavaScript Map or object does). -/
def alGet {k : Type} {v : Type} [DecidableEq k] (m : List (k × v)) (key : k) : Option v :=
  ((m.find? (fun p => decide (p.1 = key))).map Prod.snd)

/-- m[k] = val on an association list: replace the existing binding in
place (JavaScript keeps the original key position) or append a new one. -/
def alSet {k : Type} {v : Type} [DecidableEq k] : List (k × v) → k → v → List (k × v)
  | [], key, val => [(key, val)]
  | p :: t, key, val => if p.1 = key then (key, val) :: t else p :: alSet t key val

/-- Map.has / (key in object). -/
def mapHas {k : Type} {v : Type} [DecidableEq k] (m : List (k × v)) (key : k) : Bool :=
  (alGet m key).isSome

/-- Map.delete: removes the binding of the key, if present. -/
def mapDelete {k : Type} {v : Type} [DecidableEq k] : List (k × v) → k → List (k × v)
  | [], _ => []
  | p :: t, key => if p.1 = key then t else p :: mapDelete t key

/-- character_frequency_map of src/index.js lines 48-53: iterate the code
points of the original value (for..of) and tally each one. -/
def freqMap (s : JSStr) : List (Char × Nat) :=
  s.foldl (fun m c => alSet m c ((alGet m c).getD 0 + 1)) []

/-- The Properties object produced by analyzeString. -/
structure Props where
  length : Nat
  is_palindrome : Bool
  unique_characters : Nat
  word_count : Nat
  sha256_hash : JSStr
  character_frequency_map : List (Char × Nat)
deriving DecidableEq, Repr

/-- analyzeString of src/index.js lines 33-67, the version the Dockerfile
entry point runs.  The palindrome check lowercases the whole value and
compares it with its reversal; split('') and string equality act on UTF-16
code units, hence utf16Units. -/
def analyzeString (hash : JSStr → JSStr) (value : JSStr) : Props :=
  let sha256_hash := hash value
  let lowerCaseValue := toLowerStr value
  let reversedValue := (utf16Units lowerCaseValue).reverse
  let is_palindrome := utf16Units lowerCaseValue == reversedValue
  let word_count := (wsTokens value).length
  let character_frequency_map := freqMap value
  let unique_characters := character_frequency_map.length
  { length := utf16Length value
    is_palindrome := is_palindrome
    unique_characters := unique_characters
    word_count := word_count
    sha256_hash := sha256_hash
    character_frequency_map := character_frequency_map }

/-- Keep exactly the lowercase ASCII letters and digits: after toLowerCase,
this is the effect of .replace over the class of units outside a-z0-9 in
src/unnamed/part_000 line 72 (an astral code point contributes two
surrogate units, both removed, so removing by unit and by code point
agree). -/
def isLowerAlnum (c : Char) : Bool :=
  ('a' ≤ c && c ≤ 'z') || ('0' ≤ c && c ≤ '9')

/-- The second analyzeString of src/unnamed/part_000 lines 66-98 (the one
that wins function hoisting in that file): identical to analyzeString
except that the palindrome check first sanitizes by lowercasing and
removing every character outside a-z0-9.  The sanitized value is pure
ASCII, so comparing code points and comparing UTF-16 units coincide. -/
def analyzeStringImproved (hash : JSStr → JSStr) (value : JSStr) : Props :=
  let sha256_hash := hash value
  let sanitizedValue := (toLowerStr value).filter isLowerAlnum
  let reversedValue := sanitizedValue.reverse
  let is_palindrome := sanitizedValue == reversedValue
  let word_count := (wsTokens value).length
  let character_frequency_map := freqMap value
  let unique_characters := character_frequency_map.length
  { length := utf16Length value
    is_palindrome := is_palindrome
    unique_characters := unique_characters
    word_count := word_count
    sha256_hash := sha256_hash
    character_frequency_map := character_frequency_map }

/-- Drop pat from the front of s, or fail.  Mirrors matching a literal run
of pattern characters at one position of a regular expression. -/
def dropPref {α : Type} [DecidableEq α] : List α → List α → Option (List α)
  | [], s => some s
  | _ :: _, [] => none
  | p :: ps, c :: cs => if p = c then dropPref ps cs else none

/-- needle is a contiguous prefix of hay. -/
def listStartsWith {α : Type} [DecidableEq α] (needle hay : List α) : Bool :=
  (dropPref needle hay).isSome

/-- String.prototype.includes: needle occurs contiguously in hay.  The
JavaScript method searches UTF-16 code units; for needles free of
surrogates (every needle in this program is ASCII) a unit-level occurrence
always lies on code-point boundaries, so searching code points agrees. -/
def jsIncludes (hay needle : JSStr) : Bool :=
  match hay with
  | [] => needle.isEmpty
  | _ :: t => listStartsWith needle hay || jsIncludes t needle

/-- Numeric value of a nonempty run of decimal digits. -/
def digitsVal (ds : List Char) : Nat :=
  ds.foldl (fun a c => 10 * a + (c.toNat - 48)) 0

/-- First match of the regular expression of src/index.js line 88, namely
the literal "longer than " followed by one or more digits: scan left to
right; where the literal matches and a digit follows, return the value of
the maximal digit run (the greedy capture); otherwise resume the scan one
position further, as a regex engine does. -/
def matchLongerThan : JSStr → Option Nat
  | [] => none
  | c :: t =>
    match dropPref (jstr "longer than ") (c :: t) with
    | some r =>
      let ds := r.takeWhile Char.isDigit
      if ds.isEmpty then matchLongerThan t else some (digitsVal ds)
    | none => matchLongerThan t

/-- A \w word character of JavaScript regular expressions. -/
def isWordChar (c : Char) : Bool :=
  ('a' ≤ c && c ≤ 'z') || ('A' ≤ c && c ≤ 'Z') || ('0' ≤ c && c ≤ '9') || c = '_'

/-- The tail of the contains pattern after the group (?:letter|character):
a space already folded into the two literals, then a single captured word
character. -/
def containsTail (r : JSStr) : Option Char :=
  match dropPref (jstr "letter ") r with
  | some r2 =>
    match r2 with
    | c :: _ => if isWordChar c then some c else none
    | [] => none
  | none =>
    match dropPref (jstr "character ") r with
    | some r2 =>
      match r2 with
      | c :: _ => if isWordChar c then some c else none
      | [] => none
    | none => none

/-- Try the contains pattern of src/index.js line 96 at one position:
"contain", then the ordered alternation (?:ing|s), then " the ", then
(?:letter|character), a space and a captured \w character.  The ordered
alternation backtracks: if the branch taken for "ing" fails later, the
branch for "s" is still tried. -/
def matchContainsAt (s : JSStr) : Option Char :=
  match dropPref (jstr "contain") s with
  | none => none
  | some r =>
    match (dropPref (jstr "ing") r).bind (fun r1 => (dropPref (jstr " the ") r1).bind containsTail) with
    | some c => some c
    | none => (dropPref (jstr "s") r).bind (fun r1 => (dropPref (jstr " the ") r1).bind containsTail)

/-- First match of the contains pattern anywhere in the string. -/
def matchContains : JSStr → Option Char
  | [] => none
  | c :: t =>
    match matchContainsAt (c :: t) with
    | some x => some x
    | none => matchContains t

/-- The filter object built by parseNaturalLanguageQuery.  A field that
was never assigned is none, matching a key absent from the JavaScript
object literal. -/
structure NLFilters where
  is_palindrome : Option Bool := none
  word_count : Option Nat := none
  min_length : Option Nat := none
  contains_character : Option Char := none
deriving DecidableEq, Repr

/-- Object.keys(filters).length === 0: no rule ever assigned a field. -/
def NLFilters.isEmptySet (f : NLFilters) : Bool :=
  f.is_palindrome.isNone && f.word_count.isNone && f.min_length.isNone && f.contains_character.isNone

/-- Rule 1 of parseNaturalLanguageQuery (src/index.js lines 77-79): the
word palindrome or palindromic sets is_palindrome true. -/
def nlRule1 (lowerQuery : JSStr) (f : NLFilters) : NLFilters :=
  if jsIncludes lowerQuery (jstr "palindromic") || jsIncludes lowerQuery (jstr "palindrome")
  then { f with is_palindrome := some true } else f

/-- Rule 2 (lines 82-84): single word or one word sets word_count 1. -/
def nlRule2 (lowerQuery : JSStr) (f : NLFilters) : NLFilters :=
  if jsIncludes lowerQuery (jstr "single word") || jsIncludes lowerQuery (jstr "one word")
  then { f with word_count := some 1 } else f

/-- Rule 3 (lines 88-93): longer than N sets min_length N+1. -/
def nlRule3 (lowerQuery : JSStr) (f : NLFilters) : NLFilters :=
  match matchLongerThan lowerQuery with
  | some n => { f with min_length := some (n + 1) }
  | none => f

/-- Rule 4 (lines 96-100): the contains pattern sets contains_character. -/
def nlRule4 (lowerQuery : JSStr) (f : NLFilters) : NLFilters :=
  match matchContains lowerQuery with
  | some c => { f with contains_character := some c }
  | none => f

/-- Rule 5 (lines 103-105): first vowel sets contains_character to a,
overwriting rule 4. -/
def nlRule5 (lowerQuery : JSStr) (f : NLFilters) : NLFilters :=
  if jsIncludes lowerQuery (jstr "first vowel")
  then { f with contains_character := some 'a' } else f

/-- parseNaturalLanguageQuery of src/index.js lines 71-108: five
independent rules over the lowercased query, applied in order; rule 5 can
overwrite the contains_character set by rule 4. -/
def parseNaturalLanguageQuery (query : JSStr) : NLFilters :=
  let lowerQuery := toLowerStr query
  nlRule5 lowerQuery (nlRule4 lowerQuery (nlRule3 lowerQuery (nlRule2 lowerQuery (nlRule1 lowerQuery {}))))

/-- One stored string record, as built by the POST handler. -/
structure Record where
  id : JSStr
  value : JSStr
  properties : Props
  created_at : Nat
deriving DecidableEq, Repr

/-- Error kinds of the natural-language endpoint. -/
inductive NLError where
  | missingQuery
  | unparsable
deriving DecidableEq, Repr

/-- The filtering section of the natural-language handler, src/index.js
lines 180-194: the four conditional filters in source order.  The contains
filter lowercases both the stored value and the query character. -/
def nlApplyFilters (records : List Record) (f : NLFilters) : List Record :=
  let results := records
  let results := match f.is_palindrome with
    | some b => results.filter (fun s => s.properties.is_palindrome == b)
    | none => results
  let results := match f.word_count with
    | some n => results.filter (fun s => s.properties.word_count == n)
    | none => results
  let results := match f.min_length with
    | some n => results.filter (fun s => decide (n ≤ s.properties.length))
    | none => results
  let results := match f.contains_character with
    | some c => results.filter (fun s => jsIncludes (toLowerStr s.value) (toLowerStr [c]))
    | none => results
  results

/-- GET /strings/filter-by-natural-language of src/index.js lines 164-201.
The records argument is Array.from(stringsByHash.values()), the stored
records in insertion order; query is the query parameter (none when
absent, and the empty string is falsy, so both yield the missing-query
error). -/
def nlHandler (records : List Record) (query : Option JSStr) :
    Except NLError (List Record × NLFilters) :=
  match query with
  | none => Except.error NLError.missingQuery
  | some q =>
    if q.isEmpty then Except.error NLError.missingQuery
    else
      let filters := parseNaturalLanguageQuery q
      if filters.isEmptySet then Except.error NLError.unparsable
      else Except.ok (nlApplyFilters records filters, filters)

/-- Raw query parameters of GET /strings; each field is the parameter
string when given. -/
structure ExplicitQuery where
  is_palindrome : Option JSStr := none
  min_length : Option JSStr := none
  max_length : Option JSStr := none
  word_count : Option JSStr := none
  contains_character : Option JSStr := none
deriving DecidableEq, Repr

/-- JavaScript truthiness of an optional query-parameter string: absent
and the empty string are falsy, everything else truthy. -/
def qTruthy (o : Option JSStr) : Option JSStr :=
  match o with
  | some s => if s.isEmpty then none else some s
  | none => none

/-- parseInt(s, 10): skip leading whitespace, an optional sign, then the
maximal run of decimal digits; NaN (none) when that run is empty. -/
def jsParseInt (s : JSStr) : Option Int :=
  let s1 := s.dropWhile (fun c => isJsWs c)
  let signed : Int × JSStr :=
    match s1 with
    | '-' :: t => (-1, t)
    | '+' :: t => (1, t)
    | _ => (1, s1)
  let ds := signed.2.takeWhile Char.isDigit
  if ds.isEmpty then none else some (signed.1 * (digitsVal ds : Int))

/-- The filters_applied echo object of GET /strings. -/
structure AppliedFilters where
  is_palindrome : Option Bool := none
  min_length : Option Int := none
  max_length : Option Int := none
  word_count : Option Int := none
  contains_character : Option JSStr := none
deriving DecidableEq, Repr

/-- The is_palindrome block of src/index.js lines 262-267. -/
def stepPal (rq : Option JSStr) (acc : List Record × AppliedFilters) :
    List Record × AppliedFilters :=
  match qTruthy rq with
  | some s =>
    let b := s == jstr "true"
    ((acc.1.filter (fun r => r.properties.is_palindrome == b)),
      { acc.2 with is_palindrome := some b })
  | none => acc

/-- The min_length block of src/index.js lines 270-278: parseInt, and only
a non-NaN result filters and is echoed. -/
def stepMin (rq : Option JSStr) (acc : List Record × AppliedFilters) :
    List Record × AppliedFilters :=
  match qTruthy rq with
  | some s =>
    match jsParseInt s with
    | some n =>
      ((acc.1.filter (fun r => decide (n ≤ (r.properties.length : Int)))),
        { acc.2 with min_length := some n })
    | none => acc
  | none => acc

/-- The max_length block of src/index.js lines 281-287. -/
def stepMax (rq : Option JSStr) (acc : List Record × AppliedFilters) :
    List Record × AppliedFilters :=
  match qTruthy rq with
  | some s =>
    match jsParseInt s with
    | some n =>
      ((acc.1.filter (fun r => decide ((r.properties.length : Int) ≤ n))),
        { acc.2 with max_length := some n })
    | none => acc
  | none => acc

/-- The word_count block of src/index.js lines 290-296. -/
def stepWc (rq : Option JSStr) (acc : List Record × AppliedFilters) :
    List Record × AppliedFilters :=
  match qTruthy rq with
  | some s =>
    match jsParseInt s with
    | some n =>
      ((acc.1.filter (fun r => decide ((r.properties.word_count : Int) = n))),
        { acc.2 with word_count := some n })
    | none => acc
  | none => acc

/-- The contains_character block of src/index.js lines 299-304: matched
verbatim (case-sensitively) against the raw stored value. -/
def stepContains (rq : Option JSStr) (acc : List Record × AppliedFilters) :
    List Record × AppliedFilters :=
  match qTruthy rq with
  | some s =>
    ((acc.1.filter (fun r => jsIncludes r.value s)),
      { acc.2 with contains_character := some s })
  | none => acc

/-- GET /strings of src/index.js lines 253-315: start from every stored
record (insertion order) and apply the five conditional filter blocks in
source order, accumulating the filters_applied echo. -/
def getStrings (records : List Record) (q : ExplicitQuery) :
    List Record × AppliedFilters :=
  stepContains q.contains_character
    (stepWc q.word_count
      (stepMax q.max_length
        (stepMin q.min_length
          (stepPal q.is_palindrome (records, {})))))

/-- The JSON body field value of a POST /strings request.  vObj stands for
any non-primitive JSON value (array or object): always truthy, never a
string. -/
inductive BodyVal where
  | missing
  | vNull
  | vBool (b : Bool)
  | vNum (n : Int)
  | vStr (s : JSStr)
  | vObj
deriving DecidableEq, Repr

/-- JavaScript truthiness of the body value (!value in the source). -/
def jsTruthy (v : BodyVal) : Bool :=
  match v with
  | BodyVal.missing => false
  | BodyVal.vNull => false
  | BodyVal.vBool b => b
  | BodyVal.vNum n => decide (n ≠ 0)
  | BodyVal.vStr s => !s.isEmpty
  | BodyVal.vObj => true

/-- typeof value === a string, for the body value. -/
def BodyVal.isStr (v : BodyVal) : Bool :=
  match v with
  | BodyVal.vStr _ => true
  | _ => false

/-- The two in-memory maps of src/index.js lines 114-119: stringsByHash
keyed by digest, hashByValue keyed by raw value. -/
structure Store where
  byHash : List (JSStr × Record)
  byValue : List (JSStr × JSStr)
deriving DecidableEq, Repr

/-- The maps start empty. -/
def emptyStore : Store := { byHash := [], byValue := [] }

/-- Outcome of POST /strings. -/
inductive CreateResult where
  | missingField
  | invalidType
  | conflict
  | created (r : Record)
deriving DecidableEq, Repr

/-- POST /strings of src/index.js lines 125-161: falsy value gives the
missing-field error, a truthy non-string the type error, a stored value
the conflict, and otherwise the record is built from analyzeString and
written to both maps.  now stands for new Date().toISOString(). -/
def postStrings (hash : JSStr → JSStr) (now : Nat) (st : Store) (body : BodyVal) :
    CreateResult × Store :=
  if !jsTruthy body then (CreateResult.missingField, st)
  else
    match body with
    | BodyVal.vStr value =>
      if mapHas st.byValue value then (CreateResult.conflict, st)
      else
        let properties := analyzeString hash value
        let id := properties.sha256_hash
        let newStringData : Record :=
          { id := id, value := value, properties := properties, created_at := now }
        (CreateResult.created newStringData,
          { byHash := alSet st.byHash id newStringData
            byValue := alSet st.byValue value id })
    | _ => (CreateResult.invalidType, st)

/-- GET /strings/:string_value of src/index.js lines 204-226: look the
value up in hashByValue, treat a falsy or dangling hash as not found, then
read stringsByHash. -/
def getString (st : Store) (string_value : JSStr) : Option Record :=
  match alGet st.byValue string_value with
  | none => none
  | some hash => if hash.isEmpty then none else alGet st.byHash hash

/-- Outcome of DELETE /strings/:string_value. -/
inductive DeleteResult where
  | deleted
  | notFound
deriving DecidableEq, Repr

/-- DELETE /strings/:string_value of src/index.js lines 229-250: not found
unless hashByValue yields a truthy hash present in stringsByHash; on
success the entry is removed from both maps. -/
def deleteString (st : Store) (string_value : JSStr) : DeleteResult × Store :=
  match alGet st.byValue string_value with
  | none => (DeleteResult.notFound, st)
  | some hash =>
    if hash.isEmpty then (DeleteResult.notFound, st)
    else if mapHas st.byHash hash then
      (DeleteResult.deleted,
        { byHash := mapDelete st.byHash hash
          byValue := mapDelete st.byValue string_value })
    else (DeleteResult.notFound, st)

/-! Definitions written from the words of the specification, kept apart
from the source-shaped definitions above so the theorems can compare the
two.  Names carry the Spec suffix. -/

/-- Modelled from the spec: an ASCII letter or digit, the characters the
palindrome sanitization keeps. -/
def isAsciiAlnumSpec (c : Char) : Bool :=
  ('a' ≤ c && c ≤ 'z') || ('A' ≤ c && c ≤ 'Z') || ('0' ≤ c && c ≤ '9')

/-- Modelled from the spec: lowercase the value and remove every character
that is not an ASCII letter or digit. -/
def sanitizeSpec (v : JSStr) : JSStr :=
  (toLowerStr v).filter isAsciiAlnumSpec

/-- Modelled from the spec: the echoed filter set of the explicit List
operation keeps exactly the predicates that were present (truthy) and
successfully parsed or typed; the boolean and the character predicate
always type, the numeric ones only when parseInt does not give NaN. -/
def appliedEcho (q : ExplicitQuery) : AppliedFilters :=
  { is_palindrome := (qTruthy q.is_palindrome).map (fun s => s == jstr "true")
    min_length := (qTruthy q.min_length).bind jsParseInt
    max_length := (qTruthy q.max_length).bind jsParseInt
    word_count := (qTruthy q.word_count).bind jsParseInt
    contains_character := qTruthy q.contains_character }

/-- Keep a numeric query parameter only when it is absent, falsy, or
parses; a present value on which parseInt gives NaN is dropped.  Used to
express the laxer filter the spec promises for malformed numeric input. -/
def keepParsed (o : Option JSStr) : Option JSStr :=
  match qTruthy o with
  | some s => if (jsParseInt s).isSome then o else none
  | none => o

/-- The query with every malformed numeric constraint omitted. -/
def dropMalformedNumeric (q : ExplicitQuery) : ExplicitQuery :=
  { q with
    min_length := keepParsed q.min_length
    max_length := keepParsed q.max_length
    word_count := keepParsed q.word_count }

/-- The is_palindrome conjunct of the evaluator, for an applied value. -/
def palPred (o : Option Bool) (r : Record) : Bool :=
  match o with
  | some b => r.properties.is_palindrome == b
  | none => true

/-- The min_length conjunct of the evaluator. -/
def minPred (o : Option Int) (r : Record) : Bool :=
  match o with
  | some n => decide (n ≤ (r.properties.length : Int))
  | none => true

/-- The max_length conjunct of the evaluator. -/
def maxPred (o : Option Int) (r : Record) : Bool :=
  match o with
  | some n => decide ((r.properties.length : Int) ≤ n)
  | none => true

/-- The word_count conjunct of the evaluator. -/
def wcPred (o : Option Int) (r : Record) : Bool :=
  match o with
  | some n => decide ((r.properties.word_count : Int) = n)
  | none => true

/-- The contains_character conjunct of the evaluator (explicit path:
verbatim, case-sensitive substring of the raw value). -/
def containsPred (o : Option JSStr) (r : Record) : Bool :=
  match o with
  | some s => jsIncludes r.value s
  | none => true

/-- Modelled from the spec: a record satisfies the conjunction (AND) of
every present predicate of an applied filter set. -/
def recordMatchesApplied (a : AppliedFilters) (r : Record) : Bool :=
  palPred a.is_palindrome r && minPred a.min_length r && maxPred a.max_length r &&
    wcPred a.word_count r && containsPred a.contains_character r

/-- Overwrite-or-keep for one optional field, the effect of one filter
block on the echo object. -/
def updOpt {α : Type} : Option α → Option α → Option α
  | some x, _ => some x
  | none, old => old

/-- Keys of an association list. -/
def keysOf {k v : Type} (m : List (k × v)) : List k := m.map Prod.fst

/-- The store invariant of the specification: unique keys in both maps,
every stored id is the digest of the stored value, the two indices agree
in both directions, and no two records share a value. -/
def StoreInv (hash : JSStr → JSStr) (st : Store) : Prop :=
  (keysOf st.byHash).Nodup ∧
  (keysOf st.byValue).Nodup ∧
  (∀ p ∈ st.byHash, p.1 = hash p.2.value ∧ p.2.id = hash p.2.value) ∧
  (∀ q ∈ st.byValue, q.2 = hash q.1 ∧ ∃ r, (q.2, r) ∈ st.byHash ∧ r.value = q.1) ∧
  (∀ p ∈ st.byHash, (p.2.value, p.1) ∈ st.byValue) ∧
  (∀ p ∈ st.byHash, ∀ p' ∈ st.byHash, p.2.value = p'.2.value → p = p')

/-- A record as the POST handler would store it, with the identity digest
and a zero timestamp; used for concrete instances. -/
def mkRecord (v : JSStr) : Record :=
  { id := v, value := v, properties := analyzeString (fun s => s) v, created_at := 0 }

/-- The phrase of the spec's palindrome test case. -/
def panamaStr : JSStr := jstr "A man, a plan, a canal: Panama"

/-- A single astral code point (the grinning-face emoji), one code point
but two UTF-16 code units. -/
def astralStr : JSStr := [Char.ofNat 0x1F600]

/-- A stored record whose value is the single uppercase letter A. -/
def recUpperA : Record := mkRecord (jstr "A")

/-- The store after creating the one-letter string a (identity digest,
zero timestamp). -/
def storeWithA : Store :=
  (postStrings (fun s => s) 0 emptyStore (BodyVal.vStr (jstr "a"))).2

/-- No rule of the query interpreter fires: each of the five lexical
conditions of parseNaturalLanguageQuery fails on the lowercased query. -/
def noRuleFires (q : JSStr) : Bool :=
  let lowerQuery := toLowerStr q
  !(jsIncludes lowerQuery (jstr "palindromic") || jsIncludes lowerQuery (jstr "palindrome")) &&
    !(jsIncludes lowerQuery (jstr "single word") || jsIncludes lowerQuery (jstr "one word")) &&
    (matchLongerThan lowerQuery).isNone &&
    (matchContains lowerQuery).isNone &&
    !(jsIncludes lowerQuery (jstr "first vowel"))

/-! Helper lemmas. -/

theorem filter_and {α : Type} (p q : α → Bool) (l : List α) :
    (l.filter p).filter q = l.filter (fun a => p a && q a) := by
  rw [List.filter_filter]
  simp [Bool.and_comm]

theorem updOpt_none {α : Type} (o : Option α) : updOpt o none = o := by
  cases o <;> rfl

theorem palPred_none : palPred none = fun _ => true := rfl

theorem palPred_some (b : Bool) :
    palPred (some b) = fun r => r.properties.is_palindrome == b := rfl

theorem minPred_none : minPred none = fun _ => true := rfl

theorem minPred_some (n : Int) :
    minPred (some n) = fun r => decide (n ≤ (r.properties.length : Int)) := rfl

theorem maxPred_none : maxPred none = fun _ => true := rfl

theorem maxPred_some (n : Int) :
    maxPred (some n) = fun r => decide ((r.properties.length : Int) ≤ n) := rfl

theorem wcPred_none : wcPred none = fun _ => true := rfl

theorem wcPred_some (n : Int) :
    wcPred (some n) = fun r => decide ((r.properties.word_count : Int) = n) := rfl

theorem containsPred_none : containsPred none = fun _ => true := rfl

theorem containsPred_some (s : JSStr) :
    containsPred (some s) = fun r => jsIncludes r.value s := rfl

theorem stepPal_char (rq : Option JSStr) (l : List Record) (a : AppliedFilters) :
    stepPal rq (l, a) =
      (l.filter (palPred ((qTruthy rq).map (fun s => s == jstr "true"))),
        { a with is_palindrome := updOpt ((qTruthy rq).map (fun s => s == jstr "true")) a.is_palindrome }) := by
  cases h : qTruthy rq <;>
    simp [stepPal, h, palPred_none, palPred_some, updOpt]

theorem stepMin_char (rq : Option JSStr) (l : List Record) (a : AppliedFilters) :
    stepMin rq (l, a) =
      (l.filter (minPred ((qTruthy rq).bind jsParseInt)),
        { a with min_length := updOpt ((qTruthy rq).bind jsParseInt) a.min_length }) := by
  cases h : qTruthy rq with
  | none => simp [stepMin, h, minPred_none, updOpt]
  | some s => cases hp : jsParseInt s <;>
      simp [stepMin, h, hp, minPred_none, minPred_some, updOpt]

theorem stepMax_char (rq : Option JSStr) (l : List Record) (a : AppliedFilters) :
    stepMax rq (l, a) =
      (l.filter (maxPred ((qTruthy rq).bind jsParseInt)),
        { a with max_length := updOpt ((qTruthy rq).bind jsParseInt) a.max_length }) := by
  cases h : qTruthy rq with
  | none => simp [stepMax, h, maxPred_none, updOpt]
  | some s => cases hp : jsParseInt s <;>
      simp [stepMax, h, hp, maxPred_none, maxPred_some, updOpt]

theorem stepWc_char (rq : Option JSStr) (l : List Record) (a : AppliedFilters) :
    stepWc rq (l, a) =
      (l.filter (wcPred ((qTruthy rq).bind jsParseInt)),
        { a with word_count := updOpt ((qTruthy rq).bind jsParseInt) a.word_count }) := by
  cases h : qTruthy rq with
  | none => simp [stepWc, h, wcPred_none, updOpt]
  | some s => cases hp : jsParseInt s <;>
      simp [stepWc, h, hp, wcPred_none, wcPred_some, updOpt]

theorem stepContains_char (rq : Option JSStr) (l : List Record) (a : AppliedFilters) :
    stepContains rq (l, a) =
      (l.filter (containsPred (qTruthy rq)),
        { a with contains_character := updOpt (qTruthy rq) a.contains_character }) := by
  cases h : qTruthy rq <;>
    simp [stepContains, h, containsPred_none, containsPred_some, updOpt]

theorem getStrings_char (records : List Record) (q : ExplicitQuery) :
    getStrings records q =
      (records.filter (recordMatchesApplied (appliedEcho q)), appliedEcho q) := by
  simp only [getStrings, stepPal_char, stepMin_char, stepMax_char, stepWc_char,
    stepContains_char, filter_and, updOpt_none]
  rw [Prod.mk.injEq]
  constructor
  · apply List.filter_congr
    intro r _
    simp [recordMatchesApplied, appliedEcho]
  · simp [appliedEcho]

theorem echoInt_keepParsed (o : Option JSStr) :
    (qTruthy (keepParsed o)).bind jsParseInt = (qTruthy o).bind jsParseInt := by
  cases h : qTruthy o with
  | none =>
    have hk : keepParsed o = o := by
      unfold keepParsed
      rw [h]
    rw [hk, h]
  | some s =>
    cases hp : jsParseInt s with
    | none =>
      have hk : keepParsed o = none := by
        unfold keepParsed
        simp [h, hp]
      rw [hk]
      simp [qTruthy, hp]
    | some n =>
      have hk : keepParsed o = o := by
        unfold keepParsed
        simp [h, hp]
      rw [hk, h]

theorem appliedEcho_dropMalformed (q : ExplicitQuery) :
    appliedEcho (dropMalformedNumeric q) = appliedEcho q := by
  simp [appliedEcho, dropMalformedNumeric, echoInt_keepParsed]

/-- C3: on the explicit-filter List operation, a numeric filter parameter
on which parseInt gives NaN is silently ignored: the handler returns the
same matches and echo as for the query with that constraint omitted, it
never returns an error (getStrings is a total function into matches plus
echo), and the filters_applied echo holds exactly the predicates that were
present (truthy) and successfully parsed or typed. -/
theorem list_malformed_filters_ignored (records : List Record) (q : ExplicitQuery) :
    getStrings records q = getStrings records (dropMalformedNumeric q) ∧
    (getStrings records q).2 = appliedEcho q := by
  constructor
  · rw [getStrings_char, getStrings_char, appliedEcho_dropMalformed]
  · rw [getStrings_char]

/-- C8: the List operation keeps exactly the records that satisfy the
conjunction of all applied predicates, in input order (the result is a
stable filter, hence a sublist of the input); on records of lengths
3, 5 and 8 with min_length 5 it returns exactly the length-5 and length-8
records, in their original relative order. -/
theorem evaluator_conjunctive_stable (records : List Record) (q : ExplicitQuery) :
    (getStrings records q).1 = records.filter (recordMatchesApplied (appliedEcho q)) ∧
    (getStrings records q).1.Sublist records ∧
    getStrings [mkRecord (jstr "abc"), mkRecord (jstr "hello"), mkRecord (jstr "abcdefgh")]
        { min_length := some (jstr "5") } =
      ([mkRecord (jstr "hello"), mkRecord (jstr "abcdefgh")], { min_length := some 5 }) := by
  refine ⟨?_, ?_, by decide⟩
  · rw [getStrings_char]
  · rw [getStrings_char]
    exact List.filter_sublist records

/-- C4 counterexample: with the single stored record of value A, the
explicit filter contains_character=a keeps nothing (verbatim match),
while the natural-language query "containing the letter a" keeps the
record (both sides lowercased), so the two paths do not behave
identically. -/
theorem contains_paths_differ_counterexample :
    (getStrings [recUpperA] { contains_character := some (jstr "a") }).1 = [] ∧
    nlHandler [recUpperA] (some (jstr "containing the letter a")) =
      Except.ok ([recUpperA], { contains_character := some 'a' }) := by
  constructor
  · decide
  · rfl

/-- C4 amended: both paths filter by substring containment of the
character, but the explicit path matches the raw value case-sensitively
while the natural-language path lowercases both the stored value and the
character before matching. -/
theorem contains_paths_amended (records : List Record) (c : Char) :
    (getStrings records { contains_character := some [c] }).1 =
      records.filter (fun r => jsIncludes r.value [c]) ∧
    nlApplyFilters records { contains_character := some c } =
      records.filter (fun r => jsIncludes (toLowerStr r.value) (toLowerStr [c])) := by
  constructor
  · rw [getStrings_char]
    apply List.filter_congr
    intro r _
    simp [recordMatchesApplied, appliedEcho, qTruthy, palPred_none, minPred_none,
      maxPred_none, wcPred_none, containsPred_some]
  · rfl

theorem char_toNat_ofNat (n : Nat) (h : n < 0xD800) : (Char.ofNat n).toNat = n := by
  have hv : n.isValidChar := Or.inl h
  simp [Char.ofNat, hv, Char.toNat, Char.ofNatAux, UInt32.toNat, BitVec.toNat_ofNatLt]

theorem lower_not_upper (c : Char) :
    (('A' ≤ jsToLowerChar c) && (jsToLowerChar c ≤ 'Z')) = false := by
  unfold jsToLowerChar
  by_cases h : 'A' ≤ c ∧ c ≤ 'Z'
  · rw [if_pos h]
    have h1 : 65 ≤ c.toNat := by simpa [Char.le_def] using h.1
    have h2 : c.toNat ≤ 90 := by simpa [Char.le_def] using h.2
    have hd : (Char.ofNat (c.toNat + 32)).toNat = c.toNat + 32 :=
      char_toNat_ofNat _ (by omega)
    simp [Char.le_def]
    intro hx
    show (90:Nat) < (Char.ofNat (c.toNat + 32)).toNat
    rw [hd]
    omega
  · rw [if_neg h]
    simp [Char.le_def] at h ⊢
    exact h

theorem sanitizeSpec_eq (v : JSStr) :
    sanitizeSpec v = (toLowerStr v).filter isLowerAlnum := by
  unfold sanitizeSpec
  apply List.filter_congr
  intro c hc
  rcases List.mem_map.mp hc with ⟨c0, _, rfl⟩
  unfold isAsciiAlnumSpec isLowerAlnum
  rw [lower_not_upper c0]
  simp only [Bool.or_false, Bool.false_or]

/-- C1: the palindrome check of the running analyzeString (src/index.js,
the Dockerfile entry point) only lowercases and never strips
non-alphanumeric characters, so the spec's own test phrase is reported as
not a palindrome; the improved analyzeString kept in src/unnamed/part_000
(the definition that wins hoisting there, commented as the correctness
fix) does satisfy the claimed sanitized-palindrome characterisation, for
the test phrase and for every value. -/
theorem analyzer_palindrome_not_sanitized (hash : JSStr → JSStr) :
    (analyzeString hash panamaStr).is_palindrome = false ∧
    (analyzeStringImproved hash panamaStr).is_palindrome = true ∧
    ∀ v : JSStr, ((analyzeStringImproved hash v).is_palindrome = true ↔
      sanitizeSpec v = (sanitizeSpec v).reverse) := by
  refine ⟨rfl, rfl, ?_⟩
  intro v
  rw [sanitizeSpec_eq]
  simp [analyzeStringImproved]

theorem alGet_nil {k v : Type} [DecidableEq k] (key : k) :
    alGet ([] : List (k × v)) key = none := rfl

theorem alGet_cons {k v : Type} [DecidableEq k] (p : k × v) (t : List (k × v)) (key : k) :
    alGet (p :: t) key = if p.1 = key then some p.2 else alGet t key := by
  by_cases h : p.1 = key
  · simp [alGet, List.find?_cons_of_pos, h]
  · simp [alGet, List.find?_cons_of_neg, h]

theorem sumVals_alSet {k : Type} [DecidableEq k] (m : List (k × Nat)) (c : k) :
    ((alSet m c ((alGet m c).getD 0 + 1)).map Prod.snd).sum = (m.map Prod.snd).sum + 1 := by
  induction m with
  | nil => simp [alSet, alGet_nil]
  | cons p t ih =>
    by_cases h : p.1 = c
    · simp [alSet, h, alGet_cons]
      omega
    · simp only [alGet_cons, if_neg h, alSet, List.map_cons, List.sum_cons]
      omega

theorem mem_keysOf_alSet {k v : Type} [DecidableEq k] (m : List (k × v)) (c k' : k) (val : v) :
    k' ∈ keysOf (alSet m c val) ↔ k' ∈ keysOf m ∨ k' = c := by
  induction m with
  | nil => simp [alSet, keysOf]
  | cons p t ih =>
    by_cases h : p.1 = c
    · subst h
      simp [alSet, keysOf]
      tauto
    · simp [alSet, if_neg h, keysOf] at ih ⊢
      tauto

theorem keysOf_alSet_nodup {k v : Type} [DecidableEq k] (m : List (k × v)) (c : k) (val : v)
    (hm : (keysOf m).Nodup) : (keysOf (alSet m c val)).Nodup := by
  induction m with
  | nil => simp [alSet, keysOf]
  | cons p t ih =>
    simp only [keysOf, List.map_cons, List.nodup_cons] at hm
    by_cases h : p.1 = c
    · subst h
      have hset : alSet (p :: t) p.1 val = (p.1, val) :: t := by
        simp [alSet]
      rw [hset]
      simp only [keysOf, List.map_cons, List.nodup_cons]
      exact hm
    · simp only [alSet, if_neg h, keysOf, List.map_cons, List.nodup_cons]
      refine ⟨?_, ih hm.2⟩
      intro hmem
      rcases (mem_keysOf_alSet t c p.1 val).mp hmem with h1 | h1
      · exact hm.1 h1
      · exact h h1

theorem freqMap_sum (s : JSStr) : ((freqMap s).map Prod.snd).sum = s.length := by
  suffices h : ∀ (s : JSStr) (m : List (Char × Nat)),
      (((s.foldl (fun m c => alSet m c ((alGet m c).getD 0 + 1)) m)).map Prod.snd).sum =
        (m.map Prod.snd).sum + s.length by
    simpa [freqMap] using h s []
  intro s
  induction s with
  | nil => simp
  | cons c t ih =>
    intro m
    simp only [List.foldl_cons, ih, sumVals_alSet, List.length_cons]
    omega

theorem freqMap_keys_nodup (s : JSStr) : (keysOf (freqMap s)).Nodup := by
  suffices h : ∀ (s : JSStr) (m : List (Char × Nat)), (keysOf m).Nodup →
      (keysOf (s.foldl (fun m c => alSet m c ((alGet m c).getD 0 + 1)) m)).Nodup by
    exact h s [] (by simp [keysOf])
  intro s
  induction s with
  | nil => intro m hm; simpa using hm
  | cons c t ih =>
    intro m hm
    simp only [List.foldl_cons]
    exact ih _ (keysOf_alSet_nodup m c _ hm)

theorem utf16Units_bmp (v : JSStr) (h : ∀ c ∈ v, c.toNat < 0x10000) :
    utf16Units v = v.map Char.toNat := by
  induction v with
  | nil => rfl
  | cons c t ih =>
    have hc : c.toNat < 0x10000 := h c (by simp)
    have ht : ∀ x ∈ t, x.toNat < 0x10000 := fun x hx => h x (by simp [hx])
    simp only [utf16Units, List.map_cons, List.flatten_cons, if_pos hc] at ih ⊢
    rw [ih ht]
    rfl

/-- C2 counterexample: on the single astral code point U+1F600 the
frequency map (built by code-point iteration) sums to 1 while the length
field (UTF-16 code units) is 2, so the sum of the frequency values is not
the length, and the length field is not the code-point count of the
value. -/
theorem analyzer_length_utf16_counterexample :
    ((analyzeString (fun s => s) astralStr).character_frequency_map.map Prod.snd).sum = 1 ∧
    (analyzeString (fun s => s) astralStr).length = 2 ∧
    astralStr.length = 1 ∧
    ((analyzeString (fun s => s) astralStr).character_frequency_map.map Prod.snd).sum ≠
      (analyzeString (fun s => s) astralStr).length := by
  refine ⟨by decide, by decide, by decide, by decide⟩

/-- C2 amended: unique_characters counts the distinct keys of the
frequency map, the values of the frequency map sum to the number of
Unicode code points of the value, and the length field is the number of
UTF-16 code units, which agrees with the code-point count exactly when
every character is below U+10000. -/
theorem analyzer_counts_amended (hash : JSStr → JSStr) (v : JSStr) :
    (analyzeString hash v).unique_characters =
      ((keysOf (analyzeString hash v).character_frequency_map).dedup).length ∧
    ((analyzeString hash v).character_frequency_map.map Prod.snd).sum = v.length ∧
    (analyzeString hash v).length = utf16Length v ∧
    ((∀ c ∈ v, c.toNat < 0x10000) → (analyzeString hash v).length = v.length) := by
  refine ⟨?_, ?_, rfl, ?_⟩
  · have hn := freqMap_keys_nodup v
    show (freqMap v).length = ((keysOf (freqMap v)).dedup).length
    rw [List.dedup_eq_self.mpr hn]
    simp [keysOf]
  · exact freqMap_sum v
  · intro hb
    show utf16Length v = v.length
    unfold utf16Length
    rw [utf16Units_bmp v hb]
    simp

/-- C2 amended witness at the two-letter ASCII string ab. -/
theorem analyzer_counts_amended_witness :
    (analyzeString (fun s => s) (jstr "ab")).length = (jstr "ab").length :=
  (analyzer_counts_amended (fun s => s) (jstr "ab")).2.2.2 (by decide)

theorem nlRule1_min (lq : JSStr) (f : NLFilters) :
    (nlRule1 lq f).min_length = f.min_length := by
  unfold nlRule1
  split <;> rfl

theorem nlRule2_min (lq : JSStr) (f : NLFilters) :
    (nlRule2 lq f).min_length = f.min_length := by
  unfold nlRule2
  split <;> rfl

theorem nlRule3_min (lq : JSStr) (f : NLFilters) :
    (nlRule3 lq f).min_length =
      updOpt ((matchLongerThan lq).map (fun n => n + 1)) f.min_length := by
  unfold nlRule3
  cases matchLongerThan lq <;> rfl

theorem nlRule4_min (lq : JSStr) (f : NLFilters) :
    (nlRule4 lq f).min_length = f.min_length := by
  unfold nlRule4
  cases matchContains lq <;> rfl

theorem nlRule5_min (lq : JSStr) (f : NLFilters) :
    (nlRule5 lq f).min_length = f.min_length := by
  unfold nlRule5
  split <;> rfl

/-- C6: the min_length predicate produced by the interpreter is exactly
the first "longer than N" match of the lowercased query plus one, and the
spec's example query yields precisely the filter set with min_length 11. -/
theorem interpret_longer_than :
    (∀ q : JSStr, (parseNaturalLanguageQuery q).min_length =
      (matchLongerThan (toLowerStr q)).map (fun n => n + 1)) ∧
    parseNaturalLanguageQuery (jstr "strings longer than 10") =
      { min_length := some 11 } := by
  constructor
  · intro q
    unfold parseNaturalLanguageQuery
    rw [nlRule5_min, nlRule4_min, nlRule3_min, nlRule2_min, nlRule1_min]
    rw [updOpt_none]
  · decide

theorem nlRule1_id (lq : JSStr) (f : NLFilters)
    (h : (jsIncludes lq (jstr "palindromic") || jsIncludes lq (jstr "palindrome")) = false) :
    nlRule1 lq f = f := by
  unfold nlRule1
  rw [h]
  rfl

theorem nlRule2_id (lq : JSStr) (f : NLFilters)
    (h : (jsIncludes lq (jstr "single word") || jsIncludes lq (jstr "one word")) = false) :
    nlRule2 lq f = f := by
  unfold nlRule2
  rw [h]
  rfl

theorem nlRule3_id (lq : JSStr) (f : NLFilters) (h : matchLongerThan lq = none) :
    nlRule3 lq f = f := by
  unfold nlRule3
  rw [h]

theorem nlRule4_id (lq : JSStr) (f : NLFilters) (h : matchContains lq = none) :
    nlRule4 lq f = f := by
  unfold nlRule4
  rw [h]

theorem nlRule5_id (lq : JSStr) (f : NLFilters)
    (h : jsIncludes lq (jstr "first vowel") = false) :
    nlRule5 lq f = f := by
  unfold nlRule5
  rw [h]
  rfl

/-- C7: the interpreter is a total function (a Lean def); when none of the
five lexical rules fires it returns the empty predicate set, it does so on
the query xyz, and on any nonempty query whose predicate set is empty the
natural-language handler answers the unparsable error instead of
returning records. -/
theorem interpret_unparsable :
    (∀ q : JSStr, noRuleFires q = true → parseNaturalLanguageQuery q = {}) ∧
    parseNaturalLanguageQuery (jstr "xyz") = {} ∧
    (∀ (records : List Record) (q : JSStr), q.isEmpty = false →
      (parseNaturalLanguageQuery q).isEmptySet = true →
      nlHandler records (some q) = Except.error NLError.unparsable) := by
  refine ⟨?_, by decide, ?_⟩
  · intro q h
    unfold noRuleFires at h
    simp only [Bool.and_eq_true, Bool.not_eq_true'] at h
    obtain ⟨⟨⟨⟨h1, h2⟩, h3⟩, h4⟩, h5⟩ := h
    unfold parseNaturalLanguageQuery
    have h3n := Option.isNone_iff_eq_none.mp h3
    have h4n := Option.isNone_iff_eq_none.mp h4
    simp only [nlRule1_id, nlRule2_id, nlRule3_id, nlRule4_id, nlRule5_id,
      h1, h2, h3n, h4n, h5]
  · intro records q hq hempty
    simp [nlHandler, hq, hempty]

/-- C7 witness at the query xyz and the empty collection. -/
theorem interpret_unparsable_witness :
    parseNaturalLanguageQuery (jstr "xyz") = {} ∧
    nlHandler [] (some (jstr "xyz")) = Except.error NLError.unparsable :=
  ⟨interpret_unparsable.1 (jstr "xyz") (by decide),
   interpret_unparsable.2.2 [] (jstr "xyz") (by decide) (by decide)⟩

/-- C5 counterexample: the body value 0 is present and not text, yet the
falsiness check fires first and the handler answers the missing-field
error, not the type error. -/
theorem create_falsy_nontext_counterexample :
    postStrings (fun s => s) 0 emptyStore (BodyVal.vNum 0) =
      (CreateResult.missingField, emptyStore) ∧
    (CreateResult.missingField : CreateResult) ≠ CreateResult.invalidType :=
  ⟨rfl, by decide⟩

/-- C5 amended: a falsy value (absent, null, false, 0 or the empty string)
yields the missing-field error; a truthy non-text value yields the type
error; a truthy text value already stored yields the conflict; a truthy
text value not yet stored is accepted and stored as a record whose id is
the digest of the value. -/
theorem create_validation_amended (hash : JSStr → JSStr) (now : Nat) (st : Store)
    (body : BodyVal) :
    (jsTruthy body = false → postStrings hash now st body = (CreateResult.missingField, st)) ∧
    (jsTruthy body = true → body.isStr = false →
      postStrings hash now st body = (CreateResult.invalidType, st)) ∧
    (∀ s, body = BodyVal.vStr s → jsTruthy body = true → mapHas st.byValue s = true →
      postStrings hash now st body = (CreateResult.conflict, st)) ∧
    (∀ s, body = BodyVal.vStr s → jsTruthy body = true → mapHas st.byValue s = false →
      postStrings hash now st body =
        (CreateResult.created
            { id := hash s, value := s, properties := analyzeString hash s, created_at := now },
          { byHash := alSet st.byHash (hash s)
              { id := hash s, value := s, properties := analyzeString hash s, created_at := now }
            byValue := alSet st.byValue s (hash s) })) := by
  refine ⟨?_, ?_, ?_, ?_⟩
  · intro h
    simp [postStrings, h]
  · intro h1 h2
    cases body <;> simp_all [postStrings, BodyVal.isStr]
  · rintro s rfl h1 h2
    simp [postStrings, h1, h2]
  · rintro s rfl h1 h2
    simp [postStrings, h1, h2]
    exact ⟨rfl, rfl, rfl⟩

/-- C5 amended witness: the four cases at concrete inputs (missing body,
numeric body, duplicate a, fresh a), with the identity digest. -/
theorem create_validation_amended_witness :
    postStrings (fun s => s) 0 emptyStore BodyVal.missing =
      (CreateResult.missingField, emptyStore) ∧
    postStrings (fun s => s) 0 emptyStore (BodyVal.vNum 5) =
      (CreateResult.invalidType, emptyStore) ∧
    postStrings (fun s => s) 0 storeWithA (BodyVal.vStr (jstr "a")) =
      (CreateResult.conflict, storeWithA) ∧
    postStrings (fun s => s) 0 emptyStore (BodyVal.vStr (jstr "a")) =
      (CreateResult.created
          { id := jstr "a", value := jstr "a",
            properties := analyzeString (fun s => s) (jstr "a"), created_at := 0 },
        { byHash := alSet emptyStore.byHash (jstr "a")
            { id := jstr "a", value := jstr "a",
              properties := analyzeString (fun s => s) (jstr "a"), created_at := 0 }
          byValue := alSet emptyStore.byValue (jstr "a") (jstr "a") }) :=
  ⟨(create_validation_amended (fun s => s) 0 emptyStore BodyVal.missing).1 (by decide),
   (create_validation_amended (fun s => s) 0 emptyStore (BodyVal.vNum 5)).2.1
     (by decide) (by decide),
   (create_validation_amended (fun s => s) 0 storeWithA (BodyVal.vStr (jstr "a"))).2.2.1
     (jstr "a") rfl (by decide) (by decide),
   (create_validation_amended (fun s => s) 0 emptyStore (BodyVal.vStr (jstr "a"))).2.2.2
     (jstr "a") rfl (by decide) (by decide)⟩

/-- C10: a create whose value is the empty string is rejected with the
same missing-field error as an absent value (the falsiness check cannot
tell them apart) and leaves the store untouched, so the empty string is
never stored, although the analyzer itself is defined on the empty string
and reports the trivial properties. -/
theorem create_empty_string_rejected (hash : JSStr → JSStr) (now : Nat) (st : Store) :
    postStrings hash now st (BodyVal.vStr []) = (CreateResult.missingField, st) ∧
    postStrings hash now st BodyVal.missing = (CreateResult.missingField, st) ∧
    analyzeString hash [] =
      { length := 0, is_palindrome := true, unique_characters := 0, word_count := 0,
        sha256_hash := hash [], character_frequency_map := [] } :=
  ⟨rfl, rfl, rfl⟩

theorem alGet_mem {k v : Type} [DecidableEq k] {m : List (k × v)} {key : k} {val : v}
    (h : alGet m key = some val) : (key, val) ∈ m := by
  unfold alGet at h
  cases hf : m.find? (fun p => decide (p.1 = key)) with
  | none => rw [hf] at h; simp at h
  | some p =>
    rw [hf] at h
    have hm := List.mem_of_find?_eq_some hf
    have hp := List.find?_some hf
    obtain ⟨p1, p2⟩ := p
    simp at hp h
    rw [hp, h] at hm
    exact hm

theorem keys_nodup_unique {k v : Type} [DecidableEq k] {m : List (k × v)}
    (h : (keysOf m).Nodup) {key : k} {a b : v}
    (ha : (key, a) ∈ m) (hb : (key, b) ∈ m) : a = b := by
  induction m with
  | nil => cases ha
  | cons p t ih =>
    simp only [keysOf, List.map_cons, List.nodup_cons] at h
    rcases List.mem_cons.mp ha with h1 | h1 <;> rcases List.mem_cons.mp hb with h2 | h2
    · rw [← h1] at h2
      exact (Prod.mk.injEq _ _ _ _ |>.mp h2.symm).2
    · exfalso
      apply h.1
      rw [← h1]
      exact List.mem_map.mpr ⟨(key, b), h2, rfl⟩
    · exfalso
      apply h.1
      rw [← h2]
      exact List.mem_map.mpr ⟨(key, a), h1, rfl⟩
    · exact ih h.2 h1 h2

theorem mapHas_iff {k v : Type} [DecidableEq k] (m : List (k × v)) (key : k) :
    mapHas m key = true ↔ key ∈ keysOf m := by
  constructor
  · intro h
    unfold mapHas alGet at h
    cases hf : m.find? (fun p => decide (p.1 = key)) with
    | none => rw [hf] at h; simp at h
    | some p =>
      have hm := List.mem_of_find?_eq_some hf
      have hp := List.find?_some hf
      exact List.mem_map.mpr ⟨p, hm, by simpa using hp⟩
  · intro hk
    rcases List.mem_map.mp hk with ⟨p, hp, hpk⟩
    unfold mapHas alGet
    cases hf : m.find? (fun x => decide (x.1 = key)) with
    | none =>
      have hnone := List.find?_eq_none.mp hf p hp
      simp [hpk] at hnone
    | some q => simp

theorem alSet_append {k v : Type} [DecidableEq k] {m : List (k × v)} {key : k} (val : v)
    (h : key ∉ keysOf m) : alSet m key val = m ++ [(key, val)] := by
  induction m with
  | nil => rfl
  | cons p t ih =>
    simp only [keysOf, List.map_cons, List.mem_cons, not_or] at h
    rw [alSet.eq_def]
    simp only [List.cons_append]
    rw [if_neg (fun hh => h.1 hh.symm)]
    rw [ih h.2]

theorem mapDelete_sublist {k v : Type} [DecidableEq k] (m : List (k × v)) (key : k) :
    (mapDelete m key).Sublist m := by
  induction m with
  | nil => simp [mapDelete]
  | cons p t ih =>
    by_cases h : p.1 = key
    · rw [mapDelete.eq_def]
      simp only [if_pos h]
      exact List.sublist_cons_self p t
    · rw [mapDelete.eq_def]
      simp only [if_neg h]
      exact ih.cons₂ p

theorem mem_mapDelete_of {k v : Type} [DecidableEq k] {m : List (k × v)} {key k' : k} {x : v}
    (hm : (k', x) ∈ m) (hne : k' ≠ key) : (k', x) ∈ mapDelete m key := by
  induction m with
  | nil => cases hm
  | cons p t ih =>
    rw [mapDelete.eq_def]
    rcases List.mem_cons.mp hm with h1 | h1
    · have hp : p.1 ≠ key := by
        rw [← h1]
        exact hne
      simp only [if_neg hp]
      rw [← h1]
      exact List.mem_cons_self _ _
    · by_cases hp : p.1 = key
      · simp only [if_pos hp]
        exact h1
      · simp only [if_neg hp]
        exact List.mem_cons_of_mem p (ih h1)

theorem not_mem_keys_mapDelete {k v : Type} [DecidableEq k] {m : List (k × v)}
    (h : (keysOf m).Nodup) (key : k) : key ∉ keysOf (mapDelete m key) := by
  induction m with
  | nil => simp [mapDelete, keysOf]
  | cons p t ih =>
    simp only [keysOf, List.map_cons, List.nodup_cons] at h
    rw [mapDelete.eq_def]
    by_cases hp : p.1 = key
    · simp only [if_pos hp]
      rw [← hp]
      exact h.1
    · simp only [if_neg hp]
      intro hmem
      simp only [keysOf, List.map_cons, List.mem_cons] at hmem
      rcases hmem with h1 | h1
      · exact hp h1.symm
      · exact ih h.2 h1

theorem keys_mapDelete_nodup {k v : Type} [DecidableEq k] {m : List (k × v)}
    (h : (keysOf m).Nodup) (key : k) : (keysOf (mapDelete m key)).Nodup :=
  List.Nodup.sublist ((mapDelete_sublist m key).map Prod.fst) h

theorem keysOf_append {k v : Type} (a b : List (k × v)) :
    keysOf (a ++ b) = keysOf a ++ keysOf b := by
  simp [keysOf]

theorem storeInv_post (hash : JSStr → JSStr) (hinj : Function.Injective hash)
    (st : Store) (hst : StoreInv hash st) (now : Nat) (body : BodyVal) :
    StoreInv hash (postStrings hash now st body).2 := by
  cases body with
  | missing => exact hst
  | vNull => exact hst
  | vObj => exact hst
  | vBool b =>
    cases b with
    | false => exact hst
    | true => exact hst
  | vNum n =>
    by_cases hz : n = 0
    · have hsnd : (postStrings hash now st (BodyVal.vNum n)).2 = st := by
        simp [postStrings, jsTruthy, hz]
      rw [hsnd]; exact hst
    · have hsnd : (postStrings hash now st (BodyVal.vNum n)).2 = st := by
        simp [postStrings, jsTruthy, hz]
      rw [hsnd]; exact hst
  | vStr s =>
    by_cases h0 : s.isEmpty
    · have hsnd : (postStrings hash now st (BodyVal.vStr s)).2 = st := by
        simp [postStrings, jsTruthy, h0]
      rw [hsnd]; exact hst
    · by_cases h2 : mapHas st.byValue s
      · have hsnd : (postStrings hash now st (BodyVal.vStr s)).2 = st := by
          simp [postStrings, jsTruthy, h0, h2]
        rw [hsnd]; exact hst
      · obtain ⟨hn1, hn2, h3, h4, h5, h6⟩ := hst
        have h2' : mapHas st.byValue s = false := by simpa using h2
        have hsnd : (postStrings hash now st (BodyVal.vStr s)).2 =
            { byHash := alSet st.byHash (hash s)
                { id := hash s, value := s, properties := analyzeString hash s,
                  created_at := now }
              byValue := alSet st.byValue s (hash s) } := by
          simp [postStrings, jsTruthy, h0, h2']
          exact ⟨rfl, rfl⟩
        rw [hsnd]
        have hvnm : s ∉ keysOf st.byValue := fun hm =>
          absurd ((mapHas_iff _ _).mpr hm) (by simp [h2'])
        have hidnm : hash s ∉ keysOf st.byHash := by
          intro hmem
          rcases List.mem_map.mp hmem with ⟨p, hp, hpk⟩
          have h3p := h3 p hp
          have hpv : p.2.value = s := hinj (by rw [← h3p.1, hpk])
          apply hvnm
          rw [← hpv]
          exact List.mem_map.mpr ⟨(p.2.value, p.1), h5 p hp, rfl⟩
        rw [alSet_append _ hidnm, alSet_append _ hvnm]
        refine ⟨?_, ?_, ?_, ?_, ?_, ?_⟩ <;> dsimp only
        · rw [keysOf_append, List.nodup_append]
          refine ⟨hn1, by simp [keysOf], ?_⟩
          intro a ha hb
          have hax : a = hash s := by simpa [keysOf] using hb
          subst hax
          exact hidnm ha
        · rw [keysOf_append, List.nodup_append]
          refine ⟨hn2, by simp [keysOf], ?_⟩
          intro a ha hb
          have hax : a = s := by simpa [keysOf] using hb
          subst hax
          exact hvnm ha
        · intro p hp
          rcases List.mem_append.mp hp with hold | hnew
          · exact h3 p hold
          · rw [List.mem_singleton.mp hnew]
            exact ⟨rfl, rfl⟩
        · intro q hq
          rcases List.mem_append.mp hq with hold | hnew
          · obtain ⟨hq1, r', hr'm, hr'v⟩ := h4 q hold
            exact ⟨hq1, r', List.mem_append_left _ hr'm, hr'v⟩
          · rw [List.mem_singleton.mp hnew]
            refine ⟨rfl, _, List.mem_append_right _ (List.mem_singleton.mpr rfl), rfl⟩
        · intro p hp
          rcases List.mem_append.mp hp with hold | hnew
          · exact List.mem_append_left _ (h5 p hold)
          · rw [List.mem_singleton.mp hnew]
            exact List.mem_append_right _ (List.mem_singleton.mpr rfl)
        · intro p hp p' hp'
          rcases List.mem_append.mp hp with hold | hnew <;>
            rcases List.mem_append.mp hp' with hold' | hnew'
          · exact h6 p hold p' hold'
          · intro hval
            exfalso
            rw [List.mem_singleton.mp hnew'] at hval
            apply hvnm
            rw [show s = p.2.value from hval.symm]
            exact List.mem_map.mpr ⟨(p.2.value, p.1), h5 p hold, rfl⟩
          · intro hval
            exfalso
            rw [List.mem_singleton.mp hnew] at hval
            apply hvnm
            rw [show s = p'.2.value from hval]
            exact List.mem_map.mpr ⟨(p'.2.value, p'.1), h5 p' hold', rfl⟩
          · intro _
            rw [List.mem_singleton.mp hnew, List.mem_singleton.mp hnew']

theorem storeInv_delete (hash : JSStr → JSStr) (hinj : Function.Injective hash)
    (st : Store) (hst : StoreInv hash st) (sv : JSStr) :
    StoreInv hash (deleteString st sv).2 := by
  obtain ⟨hn1, hn2, h3, h4, h5, h6⟩ := hst
  unfold deleteString
  cases halG : alGet st.byValue sv with
  | none => exact ⟨hn1, hn2, h3, h4, h5, h6⟩
  | some h0 =>
    by_cases he : h0.isEmpty
    · simp only [if_pos he]
      exact ⟨hn1, hn2, h3, h4, h5, h6⟩
    · simp only [if_neg he]
      by_cases hh : mapHas st.byHash h0
      · simp only [if_pos hh]
        have hmemv : (sv, h0) ∈ st.byValue := alGet_mem halG
        obtain ⟨hh0, rdel, hrdm, hrdv⟩ := h4 (sv, h0) hmemv
        have hh0' : h0 = hash sv := hh0
        refine ⟨?_, ?_, ?_, ?_, ?_, ?_⟩ <;> dsimp only
        · exact keys_mapDelete_nodup hn1 h0
        · exact keys_mapDelete_nodup hn2 sv
        · intro p hp
          exact h3 p ((mapDelete_sublist _ _).subset hp)
        · intro q hq
          have hqm : q ∈ st.byValue := (mapDelete_sublist _ _).subset hq
          have hq1 : q.1 ≠ sv := by
            intro heq
            apply not_mem_keys_mapDelete hn2 sv
            exact List.mem_map.mpr ⟨q, hq, heq⟩
          obtain ⟨hqh, r', hr'm, hr'v⟩ := h4 q hqm
          refine ⟨hqh, r', ?_, hr'v⟩
          apply mem_mapDelete_of hr'm
          intro he2
          apply hq1
          apply hinj
          rw [← hqh, he2, hh0']
        · intro p hp
          have hpm : p ∈ st.byHash := (mapDelete_sublist _ _).subset hp
          have hne : p.2.value ≠ sv := by
            intro heq
            apply not_mem_keys_mapDelete hn1 h0
            have hp1 : p.1 = h0 := by
              rw [(h3 p hpm).1, heq, ← hh0']
            exact List.mem_map.mpr ⟨p, hp, hp1⟩
          exact mem_mapDelete_of (h5 p hpm) hne
        · intro p hp p' hp'
          exact h6 p ((mapDelete_sublist _ _).subset hp)
            p' ((mapDelete_sublist _ _).subset hp')
      · simp only [if_neg hh]
        exact ⟨hn1, hn2, h3, h4, h5, h6⟩

theorem getString_coherent (hash : JSStr → JSStr) (st : Store) (hst : StoreInv hash st)
    (sv : JSStr) (r : Record) (h : getString st sv = some r) :
    r.value = sv ∧ r.id = hash sv := by
  obtain ⟨hn1, hn2, h3, h4, h5, h6⟩ := hst
  unfold getString at h
  cases halG : alGet st.byValue sv with
  | none => rw [halG] at h; cases h
  | some h0 =>
    rw [halG] at h
    dsimp only at h
    by_cases he : h0.isEmpty
    · rw [if_pos he] at h; cases h
    · rw [if_neg he] at h
      have hmemv : (sv, h0) ∈ st.byValue := alGet_mem halG
      obtain ⟨hh0, r', hr'm, hr'v⟩ := h4 (sv, h0) hmemv
      have hrm : (h0, r) ∈ st.byHash := alGet_mem h
      have hrr : r = r' := keys_nodup_unique hn1 hrm hr'm
      subst hrr
      refine ⟨hr'v, ?_⟩
      rw [(h3 (h0, r) hrm).2, hr'v]

theorem deleteString_removes (hash : JSStr → JSStr) (st : Store) (hst : StoreInv hash st)
    (sv : JSStr) (hdel : (deleteString st sv).1 = DeleteResult.deleted) :
    mapHas (deleteString st sv).2.byValue sv = false ∧
    (∀ h0, alGet st.byValue sv = some h0 →
      mapHas (deleteString st sv).2.byHash h0 = false) := by
  obtain ⟨hn1, hn2, _h3, _h4, _h5, _h6⟩ := hst
  cases halG : alGet st.byValue sv with
  | none =>
    have heq : deleteString st sv = (DeleteResult.notFound, st) := by
      unfold deleteString
      rw [halG]
    rw [heq] at hdel
    cases hdel
  | some h0 =>
    by_cases he : h0.isEmpty
    · have heq : deleteString st sv = (DeleteResult.notFound, st) := by
        unfold deleteString
        rw [halG]
        dsimp only
        rw [if_pos he]
      rw [heq] at hdel
      cases hdel
    · by_cases hh : mapHas st.byHash h0
      · have heq : deleteString st sv =
            (DeleteResult.deleted,
              { byHash := mapDelete st.byHash h0, byValue := mapDelete st.byValue sv }) := by
          unfold deleteString
          rw [halG]
          dsimp only
          rw [if_neg he, if_pos hh]
        rw [heq]
        constructor
        · have hnm := not_mem_keys_mapDelete hn2 sv
          cases hcb : mapHas (mapDelete st.byValue sv) sv with
          | false => rfl
          | true => exact absurd ((mapHas_iff _ _).mp hcb) hnm
        · intro h0' hg
          have hsame : h0' = h0 := (Option.some.inj hg).symm
          subst hsame
          have hnm := not_mem_keys_mapDelete hn1 h0'
          cases hcb : mapHas (mapDelete st.byHash h0') h0' with
          | false => rfl
          | true => exact absurd ((mapHas_iff _ _).mp hcb) hnm
      · have heq : deleteString st sv = (DeleteResult.notFound, st) := by
          unfold deleteString
          rw [halG]
          dsimp only
          rw [if_neg he, if_neg hh]
        rw [heq] at hdel
        cases hdel

theorem storeInv_empty (hash : JSStr → JSStr) : StoreInv hash emptyStore := by
  unfold StoreInv emptyStore
  refine ⟨by simp [keysOf], by simp [keysOf], by simp, by simp, by simp, by simp⟩

/-- C9: with the digest treated as collision-free (injective), every
store satisfying the invariant still satisfies it after any create and
after any delete; a fetch is pure (its Lean type returns only the record)
and always yields the record that holds the looked-up value, with the
digest of that value as id; and a successful delete removes the value
from the value index and its digest from the record index. -/
theorem store_invariant_preserved (hash : JSStr → JSStr) (hinj : Function.Injective hash)
    (st : Store) (hst : StoreInv hash st) (now : Nat) (body : BodyVal) (sv : JSStr) :
    StoreInv hash (postStrings hash now st body).2 ∧
    StoreInv hash (deleteString st sv).2 ∧
    (∀ r, getString st sv = some r → r.value = sv ∧ r.id = hash sv) ∧
    ((deleteString st sv).1 = DeleteResult.deleted →
      mapHas (deleteString st sv).2.byValue sv = false ∧
      (∀ h0, alGet st.byValue sv = some h0 →
        mapHas (deleteString st sv).2.byHash h0 = false)) :=
  ⟨storeInv_post hash hinj st hst now body,
   storeInv_delete hash hinj st hst sv,
   fun r h => getString_coherent hash st hst sv r h,
   fun hdel => deleteString_removes hash st hst sv hdel⟩

/-- C9 witness: the identity digest is injective, the empty store
satisfies the invariant, and the theorem applies to creating the string a
and deleting it. -/
theorem store_invariant_preserved_witness :
    StoreInv (fun s => s) (postStrings (fun s => s) 0 emptyStore (BodyVal.vStr (jstr "a"))).2 ∧
    StoreInv (fun s => s) (deleteString emptyStore (jstr "a")).2 :=
  ⟨(store_invariant_preserved (fun s => s) (fun _ _ hab => hab) emptyStore
      (storeInv_empty _) 0 (BodyVal.vStr (jstr "a")) (jstr "a")).1,
   (store_invariant_preserved (fun s => s) (fun _ _ hab => hab) emptyStore
      (storeInv_empty _) 0 (BodyVal.vStr (jstr "a")) (jstr "a")).2.1⟩
